import Mathlib

/-!
A shallow embedding of `maze.h` from the mazerunner-core repository.

The maze is a 16×16 grid of 256 cells encoded as `cell = row + 16 * column`.
Each cell carries one byte of wall bits (bit `d` = wall in direction `d`,
high nibble = visited flag) and one byte of flood cost.  All `uint8_t`
arithmetic from the source is modelled on `Nat` with explicit `% 256`.
-/

namespace Mazerunner

/-- `#define MAZE_WIDTH 16` -/
def MAZE_WIDTH : Nat := 16

/-- `#define GOAL 0x22` -/
def GOAL : Nat := 0x22

/-- `#define START 0x00` -/
def START : Nat := 0x00

/-- `#define NORTH 0` -/
def NORTH : Nat := 0

/-- `#define EAST 1` -/
def EAST : Nat := 1

/-- `#define SOUTH 2` -/
def SOUTH : Nat := 2

/-- `#define WEST 3` -/
def WEST : Nat := 3

/-- `#define VISITED 0xF0` -/
def VISITED : Nat := 0xF0

/-- `#define INVALID_DIRECTION (0)` -/
def INVALID_DIRECTION : Nat := 0

/-- `#define MAX_COST 255` -/
def MAX_COST : Nat := 255

/-- The state of `class Maze`: the goal byte and the two 256-byte arrays,
modelled as functions from the cell index. -/
structure Maze where
  m_goal : Nat
  m_cost : Nat → Nat
  m_walls : Nat → Nat

/-- A default-constructed `Maze`: the member initialisers give
`m_goal = 0x077` and zero-filled `m_cost` / `m_walls` arrays. -/
def freshMaze : Maze := { m_goal := 0x077, m_cost := fun _ => 0, m_walls := fun _ => 0 }

/-- `set_maze_goal` -/
def set_maze_goal (m : Maze) (goal_cell : Nat) : Maze :=
  { m with m_goal := goal_cell }

/-- `maze_goal` -/
def maze_goal (m : Maze) : Nat :=
  m.m_goal

/-- Update one entry of a wall array with a bitwise-or (`m_walls[i] |= v`). -/
def wset (w : Nat → Nat) (i v : Nat) : Nat → Nat :=
  fun c => if c = i then w c ||| v else w c

/-- Update one entry of a wall array with a bitwise-and mask
(`m_walls[i] &= mask`, the `uint8_t` view of `&= ~(1 << d)`). -/
def wclear (w : Nat → Nat) (i v : Nat) : Nat → Nat :=
  fun c => if c = i then w c &&& v else w c

/-- `mark_cell_visited`: `m_walls[cell] |= VISITED` -/
def mark_cell_visited (m : Maze) (cell : Nat) : Maze :=
  { m with m_walls := wset m.m_walls cell VISITED }

/-- `cell_is_visited`: `(m_walls[cell] & VISITED) == VISITED` -/
def cell_is_visited (m : Maze) (cell : Nat) : Bool :=
  m.m_walls cell &&& VISITED == VISITED

/-- `is_exit`: `(m_walls[cell] & (1 << direction)) == 0` -/
def is_exit (m : Maze) (cell direction : Nat) : Bool :=
  m.m_walls cell &&& (1 <<< direction) == 0

/-- `is_wall`: `(m_walls[cell] & (1 << direction)) != 0` -/
def is_wall (m : Maze) (cell direction : Nat) : Bool :=
  m.m_walls cell &&& (1 <<< direction) != 0

/-- `cell_north`: `cell + 1` on `uint8_t` -/
def cell_north (cell : Nat) : Nat := (cell + 1) % 256

/-- `cell_east`: `cell + 16` on `uint8_t` -/
def cell_east (cell : Nat) : Nat := (cell + 16) % 256

/-- `cell_south`: `cell + 255` on `uint8_t` -/
def cell_south (cell : Nat) : Nat := (cell + 255) % 256

/-- `cell_west`: `cell + 240` on `uint8_t` -/
def cell_west (cell : Nat) : Nat := (cell + 240) % 256

/-- `neighbour`: switch on the direction, `MAX_COST` in the default branch. -/
def neighbour (cell direction : Nat) : Nat :=
  match direction with
  | 0 => cell_north cell
  | 1 => cell_east cell
  | 2 => cell_south cell
  | 3 => cell_west cell
  | _ => MAX_COST

/-- `set_wall_present`: sets the wall bit on `cell` and the mirrored bit on
`neighbour(cell, direction)`; the default branch of the switch does nothing. -/
def set_wall_present (m : Maze) (cell direction : Nat) : Maze :=
  let nextCell := neighbour cell direction
  match direction with
  | 0 => { m with m_walls := wset (wset m.m_walls cell 1) nextCell 4 }
  | 1 => { m with m_walls := wset (wset m.m_walls cell 2) nextCell 8 }
  | 2 => { m with m_walls := wset (wset m.m_walls cell 4) nextCell 1 }
  | 3 => { m with m_walls := wset (wset m.m_walls cell 8) nextCell 2 }
  | _ => m

/-- `set_wall_absent`: clears the wall bit on `cell` and the mirrored bit on
`neighbour(cell, direction)`; on `uint8_t`, `&= ~(1 << d)` is `&&&` with
`254, 253, 251, 247` for `d = 0, 1, 2, 3`. -/
def set_wall_absent (m : Maze) (cell direction : Nat) : Maze :=
  let nextCell := neighbour cell direction
  match direction with
  | 0 => { m with m_walls := wclear (wclear m.m_walls cell 254) nextCell 251 }
  | 1 => { m with m_walls := wclear (wclear m.m_walls cell 253) nextCell 247 }
  | 2 => { m with m_walls := wclear (wclear m.m_walls cell 251) nextCell 254 }
  | 3 => { m with m_walls := wclear (wclear m.m_walls cell 247) nextCell 253 }
  | _ => m

/-- `initialise_maze`: zero both arrays, place the four boundary walls for
each of the 16 rows/columns, then the start cell walls. -/
def initialise_maze (m : Maze) : Maze :=
  let m0 : Maze := { m with m_cost := fun _ => 0, m_walls := fun _ => 0 }
  let m1 := (List.range 16).foldl
    (fun mm i =>
      set_wall_present
        (set_wall_present
          (set_wall_present
            (set_wall_present mm i WEST)
            (15 * 16 + i) EAST)
          (i * 16) SOUTH)
        (16 * i + 15) NORTH)
    m0
  set_wall_absent (set_wall_present m1 START EAST) START NORTH

/-- `neighbour_cost`: the neighbouring cell's cost when there is no wall in
that direction, otherwise `MAX_COST`; `MAX_COST` in the default branch. -/
def neighbour_cost (m : Maze) (cell direction : Nat) : Nat :=
  match direction with
  | 0 => if m.m_walls cell &&& (1 <<< NORTH) = 0 then m.m_cost (cell_north cell) else MAX_COST
  | 1 => if m.m_walls cell &&& (1 <<< EAST) = 0 then m.m_cost (cell_east cell) else MAX_COST
  | 2 => if m.m_walls cell &&& (1 <<< SOUTH) = 0 then m.m_cost (cell_south cell) else MAX_COST
  | 3 => if m.m_walls cell &&& (1 <<< WEST) = 0 then m.m_cost (cell_west cell) else MAX_COST
  | _ => MAX_COST

/-- One step of the inner `for (direction = 0; direction < 4; ...)` loop of
`flood_maze`: relax the neighbour in one direction, enqueue it on update.
The assignment `m_cost[nextCell] = newCost` truncates to `uint8_t`. -/
def flood_relax (here newCost : Nat) (st : Maze × List Nat) (direction : Nat) :
    Maze × List Nat :=
  if is_exit st.1 here direction then
    let nextCell := neighbour here direction
    if newCost < st.1.m_cost nextCell then
      ({ st.1 with m_cost := fun c => if c = nextCell then newCost % 256 else st.1.m_cost c },
       st.2 ++ [nextCell])
    else st
  else st

/-- The `while (queue.size() > 0)` loop of `flood_maze`, with explicit fuel.
Each iteration dequeues `here`, computes `newCost = m_cost[here] + 1` and
relaxes the four directions in order. -/
def flood_loop : Maze → List Nat → Nat → Maze
  | m, _, 0 => m
  | m, [], _ + 1 => m
  | m, here :: rest, fuel + 1 =>
    let newCost := m.m_cost here + 1
    let st := [0, 1, 2, 3].foldl (flood_relax here newCost) (m, rest)
    flood_loop st.1 st.2 fuel

/-- Fuel bound for `flood_loop`: strictly more iterations than any run of the
source loop can take (each enqueue strictly lowers some byte of `m_cost`). -/
def FLOOD_FUEL : Nat := 16777216

/-- `flood_maze`: reset every cost to `MAX_COST`, set `m_cost[target] = 0`,
queue the target and run the flood loop to completion. -/
def flood_maze (m : Maze) (target : Nat) : Maze :=
  let m0 : Maze := { m with m_cost := fun _ => MAX_COST }
  let m1 : Maze := { m0 with m_cost := fun c => if c = target then 0 else m0.m_cost c }
  flood_loop m1 [target] FLOOD_FUEL

/-- `direction_to_smallest`: scan ahead, right, left, behind, keeping the
first strict improvement over the running smallest cost; return direction 0
when the final smallest cost is still `MAX_COST`. -/
def direction_to_smallest (m : Maze) (cell startDirection : Nat) : Nat :=
  let n0 := neighbour_cost m cell startDirection
  let sc1 := if n0 < m.m_cost cell then n0 else m.m_cost cell
  let d1 := if n0 < m.m_cost cell then startDirection else INVALID_DIRECTION
  let n1 := neighbour_cost m cell ((startDirection + 1) % 4)
  let sc2 := if n1 < sc1 then n1 else sc1
  let d2 := if n1 < sc1 then (startDirection + 1) % 4 else d1
  let n2 := neighbour_cost m cell ((startDirection + 3) % 4)
  let sc3 := if n2 < sc2 then n2 else sc2
  let d3 := if n2 < sc2 then (startDirection + 3) % 4 else d2
  let n3 := neighbour_cost m cell ((startDirection + 2) % 4)
  let sc4 := if n3 < sc3 then n3 else sc3
  let d4 := if n3 < sc3 then (startDirection + 2) % 4 else d3
  if sc4 = MAX_COST then 0 else d4

/-- The scan order of `direction_to_smallest`: ahead, right, left, behind
relative to the preferred direction. -/
def scanDir (startDirection i : Nat) : Nat :=
  match i with
  | 0 => startDirection
  | 1 => (startDirection + 1) % 4
  | 2 => (startDirection + 3) % 4
  | _ => (startDirection + 2) % 4

/-- Row of a cell under the encoding `cell = row + 16 * column`. -/
def rowOf (cell : Nat) : Nat := cell % 16

/-- Column of a cell under the encoding `cell = row + 16 * column`. -/
def colOf (cell : Nat) : Nat := cell / 16

/-- Manhattan distance `|row a - row b| + |col a - col b|` between two
cells under the grid encoding; on `Nat`, `|x - y|` is
`(x - y) + (y - x)` with truncated subtraction. -/
def manhattan (a b : Nat) : Nat :=
  ((rowOf a - rowOf b) + (rowOf b - rowOf a)) +
    ((colOf a - colOf b) + (colOf b - colOf a))

/-- The wall state holding exactly the perimeter boundary walls and no
internal walls: bit NORTH on row 15, EAST on column 15, SOUTH on row 0 and
WEST on column 0. -/
def openWalls : Nat → Nat :=
  fun c =>
    (if c % 16 = 15 then 1 else 0) + (if c / 16 = 15 then 2 else 0) +
      (if c % 16 = 0 then 4 else 0) + (if c / 16 = 0 then 8 else 0)

/-- A maze whose wall state is the open grid `openWalls`. -/
def openMaze : Maze := { m_goal := 0x077, m_cost := fun _ => 0, m_walls := openWalls }

/-- One recorded call to a wall mutator: `set_wall_present` or
`set_wall_absent` with its two `uint8_t` arguments. -/
inductive WallOp where
  | present (cell direction : Nat)
  | absent (cell direction : Nat)

/-- Perform one recorded wall-mutator call. -/
def applyOp (m : Maze) : WallOp → Maze
  | .present cell direction => set_wall_present m cell direction
  | .absent cell direction => set_wall_absent m cell direction

/-- Perform a sequence of recorded wall-mutator calls, oldest first. -/
def applyOps (m : Maze) (ops : List WallOp) : Maze :=
  ops.foldl applyOp m

/-- The arguments of a recorded call are in range: the cell is a `uint8_t`
value and the direction is one of the four compass headings. -/
def opValid : WallOp → Prop
  | .present cell direction => cell < 256 ∧ direction < 4
  | .absent cell direction => cell < 256 ∧ direction < 4

/-- `neighbour cell direction` is the logically adjacent grid cell, not an
off-grid wraparound: the cell is on the grid and does not sit on the edge
that faces `direction`. -/
def adjacentOK (cell direction : Nat) : Prop :=
  cell < 256 ∧
    ((direction = 0 ∧ cell % 16 < 15) ∨ (direction = 1 ∧ cell / 16 < 15) ∨
      (direction = 2 ∧ 0 < cell % 16) ∨ (direction = 3 ∧ 0 < cell / 16))

instance (cell direction : Nat) : Decidable (adjacentOK cell direction) := by
  unfold adjacentOK; infer_instance

/-- Wall-symmetry invariant: every logically adjacent cell pair agrees on
the wall between them. -/
def wall_symmetric (m : Maze) : Prop :=
  ∀ c < 256, ∀ d < 4, adjacentOK c d →
    is_wall m c d = is_wall m (neighbour c d) ((d + 2) % 4)

/-- Every perimeter cell carries its outward-facing wall bit. -/
def perimeter_closed (m : Maze) : Prop :=
  ∀ c < 256,
    (c % 16 = 15 → is_wall m c NORTH = true) ∧
      (c / 16 = 15 → is_wall m c EAST = true) ∧
      (c % 16 = 0 → is_wall m c SOUTH = true) ∧
      (c / 16 = 0 → is_wall m c WEST = true)

instance (m : Maze) : Decidable (perimeter_closed m) := by
  unfold perimeter_closed; infer_instance

instance (m : Maze) : Decidable (wall_symmetric m) := by
  unfold wall_symmetric; infer_instance

/-- A path of `n` flood steps from `T`, over the wall array `w`: each step
leaves its source cell through a side whose wall bit is clear, exactly the
`is_exit` test `flood_maze` performs. -/
inductive reachN (w : Nat → Nat) (T : Nat) : Nat → Nat → Prop where
  | refl : reachN w T T 0
  | step {b n : Nat} (d : Nat) : reachN w T b n → d < 4 → w b &&& (1 <<< d) = 0 →
      reachN w T (neighbour b d) (n + 1)

/-- A cell the flood can reach from `T` through some sequence of exits. -/
def reachable (w : Nat → Nat) (T c : Nat) : Prop :=
  ∃ n, reachN w T c n

/-- The maze state right before the flood loop starts: every cost reset to
`MAX_COST` and the target's cost set to 0 (the first lines of
`flood_maze`). -/
def floodStart (m : Maze) (target : Nat) : Maze :=
  { m with m_cost := fun c => if c = target then 0 else MAX_COST }

/-- Every queue entry is a `uint8_t` cell index. -/
def queueOK (q : List Nat) : Prop :=
  ∀ x ∈ q, x < 256

/-- All cost entries are bytes. -/
def costBytes (m : Maze) : Prop :=
  ∀ c, m.m_cost c ≤ 255

/-- Partial stability: every on-grid cell not waiting in the queue already
satisfies the relaxation inequality toward each of its exits. -/
def stableExcept (m : Maze) (q : List Nat) : Prop :=
  ∀ x < 256, x ∉ q → ∀ d < 4, is_exit m x d = true →
    m.m_cost (neighbour x d) ≤ m.m_cost x + 1

/-- Sum of the 256 cost bytes; decreases whenever the flood lowers a cost. -/
def costSum (m : Maze) : Nat :=
  ∑ c ∈ Finset.range 256, m.m_cost c

/-- Termination measure of the flood loop. -/
def floodMeasure (m : Maze) (q : List Nat) : Nat :=
  257 * costSum m + q.length

/-- Invariant of the flood loop: all costs are bytes, the target keeps cost
0, and any cell with a finite cost is reachable by a flood path no longer
than its recorded cost. -/
def floodInv (T : Nat) (m : Maze) : Prop :=
  (∀ c, m.m_cost c ≤ 255) ∧ m.m_cost T = 0 ∧
    (∀ c, m.m_cost c < 255 → ∃ n, n ≤ m.m_cost c ∧ reachN m.m_walls T c n)

/-- The wall-symmetry invariant phrased on the raw wall array through
`Nat.testBit`; used as the working form of `wall_symmetric`. -/
def symBits (w : Nat → Nat) : Prop :=
  ∀ c < 256, ∀ q < 4, adjacentOK c q →
    ((w c).testBit q = true ↔ (w (neighbour c q)).testBit ((q + 2) % 4) = true)

/-- `w'` is `w` with the single wall bit `e` of cell `x` forced to the
value `b`, as seen through the four wall-bit positions. -/
def updBit (w w' : Nat → Nat) (x e : Nat) (b : Bool) : Prop :=
  ∀ c q, q < 4 →
    ((w' c).testBit q = true ↔
      ((c = x ∧ q = e ∧ b = true) ∨ ((w c).testBit q = true ∧ ¬(c = x ∧ q = e))))

instance : (op : WallOp) → Decidable (opValid op) := fun op =>
  match op with
  | .present c d => inferInstanceAs (Decidable (c < 256 ∧ d < 4))
  | .absent c d => inferInstanceAs (Decidable (c < 256 ∧ d < 4))

/-- A concrete wall-free maze with hand-set costs around cell 17 (row 1,
column 1): the ahead (18) and right (33) neighbours tie at the lowest
improving cost. -/
def tieMaze : Maze :=
  { m_goal := 0,
    m_cost := fun c =>
      if c = 17 then 5 else if c = 18 then 3 else if c = 33 then 3
      else if c = 16 then 9 else if c = 1 then 9 else 200,
    m_walls := fun _ => 0 }

/-- A deliberately asymmetric wall state: cell 0 carries all four wall bits
but no neighbouring cell carries the mirrored bits. -/
def asymMaze : Maze :=
  { m_goal := 0, m_cost := fun _ => 0,
    m_walls := fun c => if c = 0 then 15 else 0 }

/-- An initialised maze with cell `0x77` walled off on all four sides
through the symmetric wall API. -/
def walledMaze : Maze :=
  set_wall_present
    (set_wall_present
      (set_wall_present
        (set_wall_present (initialise_maze freshMaze) 0x77 NORTH)
        0x77 EAST)
      0x77 SOUTH)
    0x77 WEST

/-! ## C3: the default goal -/

/-- C3, counterexample: the claim says the default goal (the value
`maze_goal()` returns on a freshly constructed `Maze`) is cell
`0x22 = 34`; on the code it is not, because the member initialiser is
`m_goal = 0x077`. -/
theorem default_goal_not_0x22 : ¬ (maze_goal freshMaze = 0x22) := by decide

/-- C3, amended: the default goal of a freshly constructed `Maze` is cell
`0x77 = 119 = 7 + 16 * 7`, i.e. row 7 and column 7 under the encoding
`cell = row + 16 * column`; the start cell is cell 0. -/
theorem default_goal_is_0x77 :
    maze_goal freshMaze = 0x77 ∧ maze_goal freshMaze = 7 + 16 * 7 ∧ START = 0 := by
  decide

/-! ## C5: the boundary walls after initialisation -/

set_option maxRecDepth 40000 in
/-- C5: after `initialise_maze()` every perimeter cell has the wall bit set
on its outward-facing side (WEST on column 0, EAST on column 15, SOUTH on
row 0, NORTH on row 15), and the start cell has a wall on its east side and
no wall on its north side. -/
theorem initialise_maze_boundary :
    perimeter_closed (initialise_maze freshMaze) ∧
      is_wall (initialise_maze freshMaze) START EAST = true ∧
      is_wall (initialise_maze freshMaze) START NORTH = false := by
  decide

/-! ## C7: out-of-range directions are a silent no-op -/

/-- C7: for every direction value outside {0,1,2,3}, `set_wall_present` and
`set_wall_absent` return the maze state completely unchanged. -/
theorem wall_ops_invalid_direction_noop (m : Maze) (cell direction : Nat)
    (h : 4 ≤ direction) :
    set_wall_present m cell direction = m ∧ set_wall_absent m cell direction = m := by
  obtain ⟨k, rfl⟩ : ∃ k, direction = k + 4 := ⟨direction - 4, by omega⟩
  exact ⟨rfl, rfl⟩

/-- C7, witness at direction 7 on a fresh maze. -/
theorem wall_ops_invalid_direction_noop_witness :
    4 ≤ 7 ∧
      (set_wall_present freshMaze 0 7 = freshMaze ∧
        set_wall_absent freshMaze 0 7 = freshMaze) :=
  ⟨by decide, wall_ops_invalid_direction_noop freshMaze 0 7 (by decide)⟩

/-! ## C9: `direction_to_smallest` stays inside the four directions -/

/-- C9: for every maze state, cell and start direction in {0,1,2,3},
`direction_to_smallest` returns a direction in {0,1,2,3}; it never returns
the renderer's pseudo-direction 4 or anything larger. -/
theorem direction_to_smallest_lt_four (m : Maze) (cell startDirection : Nat)
    (h : startDirection < 4) : direction_to_smallest m cell startDirection < 4 := by
  unfold direction_to_smallest INVALID_DIRECTION
  dsimp only
  split_ifs <;> omega

/-- C9, witness on a fresh maze. -/
theorem direction_to_smallest_lt_four_witness :
    (2 : Nat) < 4 ∧ direction_to_smallest freshMaze 17 2 < 4 :=
  ⟨by decide, direction_to_smallest_lt_four freshMaze 17 2 (by decide)⟩

/-! ## C6: fallback when no neighbour improves -/

/-- C6: when no direction examined by `direction_to_smallest` has a
neighbour cost strictly below the cell's own cost, the function returns
direction 0 (NORTH). -/
theorem direction_to_smallest_no_improvement (m : Maze) (cell startDirection : Nat)
    (hsd : startDirection < 4)
    (h : ∀ d < 4, ¬ (neighbour_cost m cell d < m.m_cost cell)) :
    direction_to_smallest m cell startDirection = 0 := by
  have h0 := h startDirection hsd
  have h1 := h ((startDirection + 1) % 4) (by omega)
  have h2 := h ((startDirection + 3) % 4) (by omega)
  have h3 := h ((startDirection + 2) % 4) (by omega)
  unfold direction_to_smallest INVALID_DIRECTION
  dsimp only
  split_ifs <;> omega

/-- C6, witness: the fresh maze floods costs to zero everywhere, so no
neighbour is ever a strict improvement. -/
theorem direction_to_smallest_no_improvement_witness :
    ((1 : Nat) < 4 ∧ ∀ d < 4, ¬ (neighbour_cost freshMaze 17 d < freshMaze.m_cost 17)) ∧
      direction_to_smallest freshMaze 17 1 = 0 :=
  ⟨⟨by decide, by decide⟩,
    direction_to_smallest_no_improvement freshMaze 17 1 (by decide) (by decide)⟩

/-! ## C4: the tie-break order of `direction_to_smallest` -/

/-- C4: for a start direction in {0,1,2,3}, if scan position `i` (ahead,
right, left, behind) is a strict improvement over the cell's own cost,
is minimal among the four scanned neighbour costs, and no earlier scan
position ties that minimum, then `direction_to_smallest` returns the
direction at scan position `i`; in particular an ahead/right tie at the
lowest improving cost returns the start direction. -/
theorem direction_to_smallest_tiebreak (m : Maze) (cell startDirection i : Nat)
    (hsd : startDirection < 4) (hi : i < 4)
    (hwf : m.m_cost cell ≤ 255)
    (himp : neighbour_cost m cell (scanDir startDirection i) < m.m_cost cell)
    (hmin : ∀ j < 4, neighbour_cost m cell (scanDir startDirection i) ≤
      neighbour_cost m cell (scanDir startDirection j))
    (hfirst : ∀ j < i, neighbour_cost m cell (scanDir startDirection j) ≠
      neighbour_cost m cell (scanDir startDirection i)) :
    direction_to_smallest m cell startDirection = scanDir startDirection i := by
  have h0 := hmin 0 (by omega)
  have h1 := hmin 1 (by omega)
  have h2 := hmin 2 (by omega)
  have h3 := hmin 3 (by omega)
  clear hmin
  unfold direction_to_smallest INVALID_DIRECTION MAX_COST
  dsimp only
  interval_cases i
  · simp only [scanDir] at h0 h1 h2 h3 himp ⊢
    split_ifs <;> omega
  · have f0 := hfirst 0 (by omega)
    simp only [scanDir] at h0 h1 h2 h3 himp f0 ⊢
    split_ifs <;> omega
  · have f0 := hfirst 0 (by omega)
    have f1 := hfirst 1 (by omega)
    simp only [scanDir] at h0 h1 h2 h3 himp f0 f1 ⊢
    split_ifs <;> omega
  · have f0 := hfirst 0 (by omega)
    have f1 := hfirst 1 (by omega)
    have f2 := hfirst 2 (by omega)
    simp only [scanDir] at h0 h1 h2 h3 himp f0 f1 f2 ⊢
    split_ifs <;> omega

/-- C4, witness: in `tieMaze` at cell 17 facing north, ahead (cell 18) and
right (cell 33) tie at cost 3 below the cell's cost 5, and the result is
the start direction. -/
theorem direction_to_smallest_tiebreak_witness :
    ((0 : Nat) < 4 ∧ (0 : Nat) < 4 ∧ tieMaze.m_cost 17 ≤ 255 ∧
      neighbour_cost tieMaze 17 (scanDir 0 0) < tieMaze.m_cost 17 ∧
      (∀ j < 4, neighbour_cost tieMaze 17 (scanDir 0 0) ≤
        neighbour_cost tieMaze 17 (scanDir 0 j)) ∧
      (∀ j < 0, neighbour_cost tieMaze 17 (scanDir 0 j) ≠
        neighbour_cost tieMaze 17 (scanDir 0 0))) ∧
    direction_to_smallest tieMaze 17 0 = scanDir 0 0 :=
  ⟨⟨by decide, by decide, by decide, by decide, by decide, by decide⟩,
    direction_to_smallest_tiebreak tieMaze 17 0 0 (by decide) (by decide) (by decide)
      (by decide) (by decide) (by decide)⟩

/-! ## C10: frame property of the wall mutators -/

theorem wset_ne (w : Nat → Nat) (x v c : Nat) (h : c ≠ x) : wset w x v c = w c := by
  simp [wset, h]

theorem wclear_ne (w : Nat → Nat) (x v c : Nat) (h : c ≠ x) : wclear w x v c = w c := by
  simp [wclear, h]

theorem lor_and_right (a b t : Nat) : (a ||| b) &&& t = (a &&& t) ||| (b &&& t) := by
  refine Nat.eq_of_testBit_eq fun i => ?_
  simp only [Nat.testBit_land, Nat.testBit_lor, Bool.and_or_distrib_right]

theorem wset_and_visited (w : Nat → Nat) (x v c : Nat) (hv : v &&& VISITED = 0) :
    wset w x v c &&& VISITED = w c &&& VISITED := by
  unfold wset
  split_ifs
  · rw [lor_and_right, hv, Nat.or_zero]
  · rfl

theorem wclear_and_visited (w : Nat → Nat) (x v c : Nat) (hv : v &&& VISITED = VISITED) :
    wclear w x v c &&& VISITED = w c &&& VISITED := by
  unfold wclear
  split_ifs
  · rw [Nat.and_assoc, hv]
  · rfl

/-- C10: for directions in {0,1,2,3}, `set_wall_present` and
`set_wall_absent` leave the goal, the whole cost array, the wall bytes of
every cell other than the two cells of the updated wall, and the visited
(high) bits of every cell unchanged. -/
theorem wall_ops_frame (m : Maze) (cell direction : Nat) (h : direction < 4) :
    ((set_wall_present m cell direction).m_goal = m.m_goal ∧
      (set_wall_present m cell direction).m_cost = m.m_cost ∧
      (∀ c, c ≠ cell → c ≠ neighbour cell direction →
        (set_wall_present m cell direction).m_walls c = m.m_walls c) ∧
      (∀ c, (set_wall_present m cell direction).m_walls c &&& VISITED =
        m.m_walls c &&& VISITED)) ∧
    ((set_wall_absent m cell direction).m_goal = m.m_goal ∧
      (set_wall_absent m cell direction).m_cost = m.m_cost ∧
      (∀ c, c ≠ cell → c ≠ neighbour cell direction →
        (set_wall_absent m cell direction).m_walls c = m.m_walls c) ∧
      (∀ c, (set_wall_absent m cell direction).m_walls c &&& VISITED =
        m.m_walls c &&& VISITED)) := by
  interval_cases direction <;>
    exact ⟨⟨rfl, rfl,
      fun c hc1 hc2 => by simp [set_wall_present, wset, hc1, hc2],
      fun c => by
        simp only [set_wall_present]
        rw [wset_and_visited _ _ _ _ (by decide), wset_and_visited _ _ _ _ (by decide)]⟩,
      rfl, rfl,
      fun c hc1 hc2 => by simp [set_wall_absent, wclear, hc1, hc2],
      fun c => by
        simp only [set_wall_absent]
        rw [wclear_and_visited _ _ _ _ (by decide), wclear_and_visited _ _ _ _ (by decide)]⟩

/-- C10, witness at cell 5, direction EAST. -/
theorem wall_ops_frame_witness :
    (1 : Nat) < 4 ∧
      (((set_wall_present freshMaze 5 1).m_goal = freshMaze.m_goal ∧
        (set_wall_present freshMaze 5 1).m_cost = freshMaze.m_cost ∧
        (∀ c, c ≠ 5 → c ≠ neighbour 5 1 →
          (set_wall_present freshMaze 5 1).m_walls c = freshMaze.m_walls c) ∧
        (∀ c, (set_wall_present freshMaze 5 1).m_walls c &&& VISITED =
          freshMaze.m_walls c &&& VISITED)) ∧
      ((set_wall_absent freshMaze 5 1).m_goal = freshMaze.m_goal ∧
        (set_wall_absent freshMaze 5 1).m_cost = freshMaze.m_cost ∧
        (∀ c, c ≠ 5 → c ≠ neighbour 5 1 →
          (set_wall_absent freshMaze 5 1).m_walls c = freshMaze.m_walls c) ∧
        (∀ c, (set_wall_absent freshMaze 5 1).m_walls c &&& VISITED =
          freshMaze.m_walls c &&& VISITED))) :=
  ⟨by decide, wall_ops_frame freshMaze 5 1 (by decide)⟩

/-! ## C2: the wall-symmetry invariant -/

theorem is_wall_testBit (m : Maze) (c d : Nat) :
    is_wall m c d = (m.m_walls c).testBit d := by
  unfold is_wall
  rw [Nat.one_shiftLeft, Nat.and_two_pow]
  cases h : (m.m_walls c).testBit d <;> simp [h, (Nat.two_pow_pos d).ne']

theorem testBit_wset (w : Nat → Nat) (x v c q : Nat) :
    ((wset w x v c).testBit q = true) ↔
      ((w c).testBit q = true ∨ (c = x ∧ v.testBit q = true)) := by
  unfold wset
  split_ifs with h <;> simp [Nat.testBit_lor, h]

theorem testBit_wclear (w : Nat → Nat) (x v c q : Nat) :
    ((wclear w x v c).testBit q = true) ↔
      ((w c).testBit q = true ∧ (c = x → v.testBit q = true)) := by
  unfold wclear
  split_ifs with h <;> simp [Nat.testBit_land, h]

theorem adjacent_mirror (c q : Nat) (h : adjacentOK c q) :
    adjacentOK (neighbour c q) ((q + 2) % 4) ∧ neighbour (neighbour c q) ((q + 2) % 4) = c := by
  obtain ⟨hc, hq⟩ := h
  rcases hq with ⟨rfl, h⟩ | ⟨rfl, h⟩ | ⟨rfl, h⟩ | ⟨rfl, h⟩
  · have e1 : neighbour c 0 = c + 1 := by
      simp only [neighbour, cell_north]; omega
    have e2 : neighbour (c + 1) 2 = c := by
      simp only [neighbour, cell_south]; omega
    rw [show (0 + 2) % 4 = 2 by norm_num, e1, e2]
    refine ⟨?_, rfl⟩
    unfold adjacentOK
    omega
  · have e1 : neighbour c 1 = c + 16 := by
      simp only [neighbour, cell_east]; omega
    have e2 : neighbour (c + 16) 3 = c := by
      simp only [neighbour, cell_west]; omega
    rw [show (1 + 2) % 4 = 3 by norm_num, e1, e2]
    refine ⟨?_, rfl⟩
    unfold adjacentOK
    omega
  · have e1 : neighbour c 2 = c - 1 := by
      simp only [neighbour, cell_south]; omega
    have e2 : neighbour (c - 1) 0 = c := by
      simp only [neighbour, cell_north]; omega
    rw [show (2 + 2) % 4 = 0 by norm_num, e1, e2]
    refine ⟨?_, rfl⟩
    unfold adjacentOK
    omega
  · have e1 : neighbour c 3 = c - 16 := by
      simp only [neighbour, cell_west]; omega
    have e2 : neighbour (c - 16) 1 = c := by
      simp only [neighbour, cell_east]; omega
    rw [show (3 + 2) % 4 = 1 by norm_num, e1, e2]
    refine ⟨?_, rfl⟩
    unfold adjacentOK
    omega

theorem wrap_dead (c q : Nat) (hc : c < 256) (hq : q < 4) (h : ¬ adjacentOK c q) :
    ¬ adjacentOK (neighbour c q) ((q + 2) % 4) := by
  interval_cases q
  · have hedge : c % 16 = 15 := by unfold adjacentOK at h; omega
    by_cases h255 : c = 255
    · subst h255; decide
    · have e1 : neighbour c 0 = c + 1 := by
        simp only [neighbour, cell_north]; omega
      rw [show (0 + 2) % 4 = 2 by norm_num, e1]
      unfold adjacentOK
      omega
  · have hedge : c / 16 = 15 := by unfold adjacentOK at h; omega
    have e1 : neighbour c 1 = c - 240 := by
      simp only [neighbour, cell_east]; omega
    rw [show (1 + 2) % 4 = 3 by norm_num, e1]
    unfold adjacentOK
    omega
  · have hedge : c % 16 = 0 := by unfold adjacentOK at h; omega
    by_cases h0 : c = 0
    · subst h0; decide
    · have e1 : neighbour c 2 = c - 1 := by
        simp only [neighbour, cell_south]; omega
      rw [show (2 + 2) % 4 = 0 by norm_num, e1]
      unfold adjacentOK
      omega
  · have hedge : c / 16 = 0 := by unfold adjacentOK at h; omega
    have e1 : neighbour c 3 = c + 240 := by
      simp only [neighbour, cell_west]; omega
    rw [show (3 + 2) % 4 = 1 by norm_num, e1]
    unfold adjacentOK
    omega

theorem neighbour_ne (x e : Nat) (hx : adjacentOK x e) : neighbour x e ≠ x := by
  obtain ⟨hlt, h⟩ := hx
  rcases h with ⟨rfl, h⟩ | ⟨rfl, h⟩ | ⟨rfl, h⟩ | ⟨rfl, h⟩ <;>
    simp only [neighbour, cell_north, cell_east, cell_south, cell_west] <;>
    omega

theorem symBits_iff (m : Maze) : wall_symmetric m ↔ symBits m.m_walls := by
  unfold wall_symmetric symBits
  constructor <;> intro h c hc q hq ha <;> have hh := h c hc q hq ha
  · rwa [is_wall_testBit, is_wall_testBit, Bool.eq_iff_iff] at hh
  · rw [is_wall_testBit, is_wall_testBit, Bool.eq_iff_iff]
    exact hh

theorem updBit_dead (w w' : Nat → Nat) (x e : Nat) (b : Bool)
    (hu : updBit w w' x e b) (hx : ¬ adjacentOK x e) (hs : symBits w) : symBits w' := by
  intro c hc q hq hadj
  obtain ⟨hpa, hpc⟩ := adjacent_mirror c q hadj
  rw [hu c q hq, hu (neighbour c q) ((q + 2) % 4) (by omega)]
  have h1 : ¬(c = x ∧ q = e) := by
    rintro ⟨rfl, rfl⟩; exact hx hadj
  have h2 : ¬(neighbour c q = x ∧ (q + 2) % 4 = e) := by
    rintro ⟨hh1, hh2⟩; rw [hh1, hh2] at hpa; exact hx hpa
  have h3 := hs c hc q hq hadj
  tauto

theorem updBit_pair (w w1 w2 : Nat → Nat) (x e : Nat) (b : Bool)
    (hx : adjacentOK x e)
    (hu1 : updBit w w1 x e b)
    (hu2 : updBit w1 w2 (neighbour x e) ((e + 2) % 4) b)
    (hs : symBits w) : symBits w2 := by
  have he : e < 4 := by
    obtain ⟨_, h⟩ := hx
    rcases h with ⟨rfl, _⟩ | ⟨rfl, _⟩ | ⟨rfl, _⟩ | ⟨rfl, _⟩ <;> omega
  obtain ⟨hxa, hxc⟩ := adjacent_mirror x e hx
  have hxne : neighbour x e ≠ x := neighbour_ne x e hx
  have hxne' : x ≠ neighbour x e := Ne.symm hxne
  intro c hc q hq hadj
  obtain ⟨hpa, hpc⟩ := adjacent_mirror c q hadj
  rw [hu2 c q hq, hu1 c q hq, hu2 (neighbour c q) ((q + 2) % 4) (by omega),
    hu1 (neighbour c q) ((q + 2) % 4) (by omega)]
  by_cases hA : c = x ∧ q = e
  · obtain ⟨rfl, rfl⟩ := hA
    simp [hxne, hxne']
  · by_cases hB : c = neighbour x e ∧ q = (e + 2) % 4
    · obtain ⟨rfl, rfl⟩ := hB
      have hopp : ((e + 2) % 4 + 2) % 4 = e := by omega
      have hee : ¬ (e = (e + 2) % 4) := by omega
      have hee' : ¬ ((e + 2) % 4 = e) := by omega
      rw [hxc, hopp]
      simp [hxne, hxne', hee, hee']
    · have hC1 : ¬(neighbour c q = x ∧ (q + 2) % 4 = e) := by
        rintro ⟨h1, h2⟩
        apply hB
        rw [h1, h2] at hpc
        exact ⟨hpc.symm, by omega⟩
      have hC2 : ¬(neighbour c q = neighbour x e ∧ (q + 2) % 4 = (e + 2) % 4) := by
        rintro ⟨h1, h2⟩
        apply hA
        rw [h1, h2, hxc] at hpc
        exact ⟨hpc.symm, by omega⟩
      have h3 := hs c hc q hq hadj
      constructor
      · rintro (⟨h1, h2, _⟩ | ⟨hin, _⟩)
        · exact absurd ⟨h1, h2⟩ hB
        · rcases hin with ⟨h1, h2, _⟩ | ⟨hbit, _⟩
          · exact absurd ⟨h1, h2⟩ hA
          · exact Or.inr ⟨Or.inr ⟨h3.mp hbit, hC1⟩, hC2⟩
      · rintro (⟨h1, h2, _⟩ | ⟨hin, _⟩)
        · exact absurd ⟨h1, h2⟩ hC2
        · rcases hin with ⟨h1, h2, _⟩ | ⟨hbit, _⟩
          · exact absurd ⟨h1, h2⟩ hC1
          · exact Or.inr ⟨Or.inr ⟨h3.mpr hbit, hA⟩, hB⟩

theorem updBit_wset (w : Nat → Nat) (x e : Nat) :
    updBit w (wset w x (2 ^ e)) x e true := by
  intro c q hq
  rw [testBit_wset, Nat.testBit_two_pow]
  simp only [decide_eq_true_eq, and_true]
  constructor
  · rintro (h | ⟨rfl, rfl⟩)
    · by_cases hce : c = x ∧ q = e
      · exact Or.inl hce
      · exact Or.inr ⟨h, hce⟩
    · exact Or.inl ⟨rfl, rfl⟩
  · rintro (⟨rfl, rfl⟩ | ⟨h, _⟩)
    · exact Or.inr ⟨rfl, rfl⟩
    · exact Or.inl h

theorem updBit_wclear (w : Nat → Nat) (x e : Nat) (he : e < 4) :
    updBit w (wclear w x (255 - 2 ^ e)) x e false := by
  intro c q hq
  rw [testBit_wclear]
  have hm : (255 - 2 ^ e).testBit q = !decide (q = e) := by
    interval_cases e <;> interval_cases q <;> decide
  rw [hm]
  simp only [Bool.not_eq_eq_eq_not, Bool.not_true, decide_eq_false_iff_not]
  constructor
  · rintro ⟨h, himp⟩
    refine Or.inr ⟨h, ?_⟩
    rintro ⟨rfl, rfl⟩
    exact himp rfl rfl
  · rintro (⟨_, _, h⟩ | ⟨h, hmem⟩)
    · exact absurd h (by simp)
    · exact ⟨h, fun hcx hqe => hmem ⟨hcx, hqe⟩⟩

theorem set_wall_present_symBits (m : Maze) (cell d : Nat) (hc : cell < 256)
    (hd : d < 4) (hs : symBits m.m_walls) :
    symBits (set_wall_present m cell d).m_walls := by
  interval_cases d <;>
    [(show symBits (wset (wset m.m_walls cell (2 ^ 0)) (neighbour cell 0) (2 ^ 2)));
     (show symBits (wset (wset m.m_walls cell (2 ^ 1)) (neighbour cell 1) (2 ^ 3)));
     (show symBits (wset (wset m.m_walls cell (2 ^ 2)) (neighbour cell 2) (2 ^ 0)));
     (show symBits (wset (wset m.m_walls cell (2 ^ 3)) (neighbour cell 3) (2 ^ 1)))]
  · by_cases hA : adjacentOK cell 0
    · exact updBit_pair _ _ _ cell 0 true hA (updBit_wset m.m_walls cell 0)
        (updBit_wset _ (neighbour cell 0) 2) hs
    · exact updBit_dead _ _ (neighbour cell 0) 2 true (updBit_wset _ (neighbour cell 0) 2)
        (wrap_dead cell 0 hc (by omega) hA)
        (updBit_dead _ _ cell 0 true (updBit_wset m.m_walls cell 0) hA hs)
  · by_cases hA : adjacentOK cell 1
    · exact updBit_pair _ _ _ cell 1 true hA (updBit_wset m.m_walls cell 1)
        (updBit_wset _ (neighbour cell 1) 3) hs
    · exact updBit_dead _ _ (neighbour cell 1) 3 true (updBit_wset _ (neighbour cell 1) 3)
        (wrap_dead cell 1 hc (by omega) hA)
        (updBit_dead _ _ cell 1 true (updBit_wset m.m_walls cell 1) hA hs)
  · by_cases hA : adjacentOK cell 2
    · exact updBit_pair _ _ _ cell 2 true hA (updBit_wset m.m_walls cell 2)
        (updBit_wset _ (neighbour cell 2) 0) hs
    · exact updBit_dead _ _ (neighbour cell 2) 0 true (updBit_wset _ (neighbour cell 2) 0)
        (wrap_dead cell 2 hc (by omega) hA)
        (updBit_dead _ _ cell 2 true (updBit_wset m.m_walls cell 2) hA hs)
  · by_cases hA : adjacentOK cell 3
    · exact updBit_pair _ _ _ cell 3 true hA (updBit_wset m.m_walls cell 3)
        (updBit_wset _ (neighbour cell 3) 1) hs
    · exact updBit_dead _ _ (neighbour cell 3) 1 true (updBit_wset _ (neighbour cell 3) 1)
        (wrap_dead cell 3 hc (by omega) hA)
        (updBit_dead _ _ cell 3 true (updBit_wset m.m_walls cell 3) hA hs)

theorem set_wall_absent_symBits (m : Maze) (cell d : Nat) (hc : cell < 256)
    (hd : d < 4) (hs : symBits m.m_walls) :
    symBits (set_wall_absent m cell d).m_walls := by
  interval_cases d <;>
    [(show symBits (wclear (wclear m.m_walls cell (255 - 2 ^ 0)) (neighbour cell 0) (255 - 2 ^ 2)));
     (show symBits (wclear (wclear m.m_walls cell (255 - 2 ^ 1)) (neighbour cell 1) (255 - 2 ^ 3)));
     (show symBits (wclear (wclear m.m_walls cell (255 - 2 ^ 2)) (neighbour cell 2) (255 - 2 ^ 0)));
     (show symBits (wclear (wclear m.m_walls cell (255 - 2 ^ 3)) (neighbour cell 3) (255 - 2 ^ 1)))]
  · by_cases hA : adjacentOK cell 0
    · exact updBit_pair _ _ _ cell 0 false hA (updBit_wclear m.m_walls cell 0 (by omega))
        (updBit_wclear _ (neighbour cell 0) 2 (by omega)) hs
    · exact updBit_dead _ _ (neighbour cell 0) 2 false
        (updBit_wclear _ (neighbour cell 0) 2 (by omega))
        (wrap_dead cell 0 hc (by omega) hA)
        (updBit_dead _ _ cell 0 false (updBit_wclear m.m_walls cell 0 (by omega)) hA hs)
  · by_cases hA : adjacentOK cell 1
    · exact updBit_pair _ _ _ cell 1 false hA (updBit_wclear m.m_walls cell 1 (by omega))
        (updBit_wclear _ (neighbour cell 1) 3 (by omega)) hs
    · exact updBit_dead _ _ (neighbour cell 1) 3 false
        (updBit_wclear _ (neighbour cell 1) 3 (by omega))
        (wrap_dead cell 1 hc (by omega) hA)
        (updBit_dead _ _ cell 1 false (updBit_wclear m.m_walls cell 1 (by omega)) hA hs)
  · by_cases hA : adjacentOK cell 2
    · exact updBit_pair _ _ _ cell 2 false hA (updBit_wclear m.m_walls cell 2 (by omega))
        (updBit_wclear _ (neighbour cell 2) 0 (by omega)) hs
    · exact updBit_dead _ _ (neighbour cell 2) 0 false
        (updBit_wclear _ (neighbour cell 2) 0 (by omega))
        (wrap_dead cell 2 hc (by omega) hA)
        (updBit_dead _ _ cell 2 false (updBit_wclear m.m_walls cell 2 (by omega)) hA hs)
  · by_cases hA : adjacentOK cell 3
    · exact updBit_pair _ _ _ cell 3 false hA (updBit_wclear m.m_walls cell 3 (by omega))
        (updBit_wclear _ (neighbour cell 3) 1 (by omega)) hs
    · exact updBit_dead _ _ (neighbour cell 3) 1 false
        (updBit_wclear _ (neighbour cell 3) 1 (by omega))
        (wrap_dead cell 3 hc (by omega) hA)
        (updBit_dead _ _ cell 3 false (updBit_wclear m.m_walls cell 3 (by omega)) hA hs)

theorem applyOps_symmetric : ∀ (ops : List WallOp) (m : Maze),
    (∀ op ∈ ops, opValid op) → wall_symmetric m → wall_symmetric (applyOps m ops) := by
  intro ops
  induction ops with
  | nil => intro m _ hm; exact hm
  | cons op rest ih =>
    intro m hv hm
    have hop := hv op (by simp)
    have hrest : ∀ o ∈ rest, opValid o := fun o ho => hv o (by simp [ho])
    show wall_symmetric (applyOps (applyOp m op) rest)
    apply ih _ hrest
    cases op with
    | present cell d =>
      obtain ⟨h1, h2⟩ := hop
      rw [symBits_iff]
      exact set_wall_present_symBits m cell d h1 h2 ((symBits_iff m).mp hm)
    | absent cell d =>
      obtain ⟨h1, h2⟩ := hop
      rw [symBits_iff]
      exact set_wall_absent_symBits m cell d h1 h2 ((symBits_iff m).mp hm)

set_option maxRecDepth 40000 in
/-- C2: starting from either the initialised wall state or the all-open
(fresh) wall state, any sequence of `set_wall_present` / `set_wall_absent`
calls with in-range cells and directions in {0,1,2,3} leaves the wall state
symmetric: every logically adjacent pair of cells agrees on the wall
between them. -/
theorem wall_ops_preserve_symmetry (ops : List WallOp)
    (hops : ∀ op ∈ ops, opValid op) :
    wall_symmetric (applyOps (initialise_maze freshMaze) ops) ∧
      wall_symmetric (applyOps freshMaze ops) := by
  constructor
  · exact applyOps_symmetric ops _ hops (by decide)
  · exact applyOps_symmetric ops _ hops (by decide)

set_option maxRecDepth 40000 in
/-- C2, witness: one wall set and a different wall cleared, from both
start states. -/
theorem wall_ops_preserve_symmetry_witness :
    (∀ op ∈ [WallOp.present 34 0, WallOp.absent 100 3], opValid op) ∧
      (wall_symmetric (applyOps (initialise_maze freshMaze)
        [WallOp.present 34 0, WallOp.absent 100 3]) ∧
        wall_symmetric (applyOps freshMaze [WallOp.present 34 0, WallOp.absent 100 3])) :=
  ⟨by decide, wall_ops_preserve_symmetry [WallOp.present 34 0, WallOp.absent 100 3] (by decide)⟩

/-! ## C8: the sentinel after flooding -/

theorem flood_relax_walls (here nc : Nat) (st : Maze × List Nat) (d : Nat) :
    ((flood_relax here nc st d).1).m_walls = st.1.m_walls := by
  unfold flood_relax
  dsimp only
  split_ifs <;> rfl

theorem foldl_relax_walls (here nc : Nat) : ∀ (l : List Nat) (st : Maze × List Nat),
    ((l.foldl (flood_relax here nc) st).1).m_walls = st.1.m_walls := by
  intro l
  induction l with
  | nil => intro st; rfl
  | cons d rest ih =>
    intro st
    rw [List.foldl_cons, ih, flood_relax_walls]

theorem flood_loop_walls : ∀ (fuel : Nat) (m : Maze) (q : List Nat),
    (flood_loop m q fuel).m_walls = m.m_walls := by
  intro fuel
  induction fuel with
  | zero => intro m q; cases q <;> rfl
  | succ f ih =>
    intro m q
    cases q with
    | nil => rfl
    | cons here rest =>
      show (flood_loop _ _ f).m_walls = m.m_walls
      rw [ih, foldl_relax_walls]

theorem neighbour_lt_256 (b d : Nat) (hd : d < 4) : neighbour b d < 256 := by
  interval_cases d <;>
    simp only [neighbour, cell_north, cell_east, cell_south, cell_west] <;>
    omega

theorem reachN_lt_256 (w : Nat → Nat) (T x n : Nat) (hT : T < 256)
    (h : reachN w T x n) : x < 256 := by
  induction h with
  | refl => exact hT
  | step d hr hd hexit => exact neighbour_lt_256 _ d hd

theorem full_nibble_bit (w q : Nat) (hw : w &&& 15 = 15) (hq : q < 4) :
    w &&& (1 <<< q) ≠ 0 := by
  rw [Nat.one_shiftLeft, Nat.and_two_pow]
  have hbit : w.testBit q = true := by
    have h15 : (15 : Nat).testBit q = true := by interval_cases q <;> decide
    have := congrArg (fun x => x.testBit q) hw
    simpa [Nat.testBit_land, h15] using this
  rw [hbit]
  simpa using (Nat.two_pow_pos q).ne'

theorem flood_relax_inv (T here nc : Nat) (st : Maze × List Nat) (d : Nat) (hd : d < 4)
    (hnc : nc ≤ 255 → ∃ n, n < nc ∧ reachN st.1.m_walls T here n)
    (hP : floodInv T st.1) : floodInv T (flood_relax here nc st d).1 := by
  unfold flood_relax
  dsimp only
  split_ifs with h1 h2
  · obtain ⟨hb, hT0, hS⟩ := hP
    refine ⟨?_, ?_, ?_⟩
    · intro c
      dsimp only
      split_ifs with hc
      · exact Nat.le_of_lt_succ (Nat.mod_lt _ (by omega))
      · exact hb c
    · dsimp only
      split_ifs with hc
      · exfalso
        rw [← hc, hT0] at h2
        omega
      · exact hT0
    · intro c hcost
      dsimp only at hcost ⊢
      have hexit : st.1.m_walls here &&& (1 <<< d) = 0 := by
        simpa [is_exit] using h1
      split_ifs at hcost ⊢ with hcell
      · have hle : nc ≤ 254 := by
          have := hb (neighbour here d)
          omega
        obtain ⟨n, hn, hr⟩ := hnc (by omega)
        subst hcell
        refine ⟨n + 1, ?_, reachN.step d hr hd hexit⟩
        rw [Nat.mod_eq_of_lt (by omega)]
        omega
      · exact hS c hcost
  · exact hP
  · exact hP

theorem foldl_relax_inv (T here nc : Nat) (st : Maze × List Nat)
    (hnc : nc ≤ 255 → ∃ n, n < nc ∧ reachN st.1.m_walls T here n)
    (hP : floodInv T st.1) :
    floodInv T (([0, 1, 2, 3].foldl (flood_relax here nc) st)).1 := by
  have e0 := flood_relax_walls here nc st 0
  have p0 := flood_relax_inv T here nc st 0 (by omega) hnc hP
  have hnc0 : nc ≤ 255 → ∃ n, n < nc ∧
      reachN (flood_relax here nc st 0).1.m_walls T here n := by
    rw [e0]; exact hnc
  have e1 := flood_relax_walls here nc (flood_relax here nc st 0) 1
  have p1 := flood_relax_inv T here nc _ 1 (by omega) hnc0 p0
  have hnc1 : nc ≤ 255 → ∃ n, n < nc ∧
      reachN (flood_relax here nc (flood_relax here nc st 0) 1).1.m_walls T here n := by
    rw [e1]; exact hnc0
  have p2 := flood_relax_inv T here nc _ 2 (by omega) hnc1 p1
  have hnc2 : nc ≤ 255 → ∃ n, n < nc ∧
      reachN (flood_relax here nc (flood_relax here nc
        (flood_relax here nc st 0) 1) 2).1.m_walls T here n := by
    rw [flood_relax_walls]; exact hnc1
  have p3 := flood_relax_inv T here nc _ 3 (by omega) hnc2 p2
  exact p3

theorem flood_loop_inv (T : Nat) : ∀ (fuel : Nat) (m : Maze) (q : List Nat),
    floodInv T m → floodInv T (flood_loop m q fuel) := by
  intro fuel
  induction fuel with
  | zero => intro m q h; cases q <;> exact h
  | succ f ih =>
    intro m q h
    cases q with
    | nil => exact h
    | cons here rest =>
      show floodInv T (flood_loop _ _ f)
      apply ih
      apply foldl_relax_inv
      · intro hle
        have hlt : m.m_cost here < 255 := by omega
        obtain ⟨n, hn, hr⟩ := h.2.2 here hlt
        exact ⟨n, by omega, hr⟩
      · exact h

theorem walled_unreachable (m : Maze) (T c : Nat) (hT : T < 256)
    (hsym : wall_symmetric m) (hper : perimeter_closed m) (hc : c < 256)
    (hne : c ≠ T) (hw : m.m_walls c &&& 15 = 15) : ¬ reachable m.m_walls T c := by
  rintro ⟨n, hr⟩
  cases hr with
  | refl => exact hne rfl
  | @step b k d hb hd hexit =>
    have hb256 : b < 256 := reachN_lt_256 m.m_walls T b k hT hb
    by_cases hA : adjacentOK b d
    · have hmir := hsym b hb256 d hd hA
      have hbw : is_wall m b d = false := by
        simp [is_wall, hexit]
      rw [hbw] at hmir
      have hset := full_nibble_bit (m.m_walls (neighbour b d)) ((d + 2) % 4) hw (by omega)
      have : is_wall m (neighbour b d) ((d + 2) % 4) = true := by
        simp [is_wall, hset]
      rw [this] at hmir
      exact Bool.noConfusion hmir
    · have hper_b := hper b hb256
      unfold adjacentOK at hA
      interval_cases d
      · have hedge : b % 16 = 15 := by omega
        have := hper_b.1 hedge
        simp only [is_wall, NORTH, bne_iff_ne, ne_eq] at this
        exact this hexit
      · have hedge : b / 16 = 15 := by omega
        have := hper_b.2.1 hedge
        simp only [is_wall, EAST, bne_iff_ne, ne_eq] at this
        exact this hexit
      · have hedge : b % 16 = 0 := by omega
        have := hper_b.2.2.1 hedge
        simp only [is_wall, SOUTH, bne_iff_ne, ne_eq] at this
        exact this hexit
      · have hedge : b / 16 = 0 := by omega
        have := hper_b.2.2.2 hedge
        simp only [is_wall, WEST, bne_iff_ne, ne_eq] at this
        exact this hexit

/-- C8, amended: after `flood_maze(T)` with a `uint8_t` target, the target
holds cost 0 and every cell the flood cannot reach (stepping only through
sides whose wall bit is clear on the cell being exited) keeps the sentinel
255; a cell other than the target with all four wall bits set is such a
cell whenever the wall state is symmetric and the perimeter is closed. -/
theorem flood_sentinel (m : Maze) (T c : Nat) (hT : T < 256)
    (h : ¬ reachable m.m_walls T c ∨
      (wall_symmetric m ∧ perimeter_closed m ∧ c < 256 ∧ c ≠ T ∧
        m.m_walls c &&& 15 = 15)) :
    (flood_maze m T).m_cost T = 0 ∧ (flood_maze m T).m_cost c = 255 := by
  have hunreach : ¬ reachable m.m_walls T c := by
    rcases h with h | ⟨h1, h2, h3, h4, h5⟩
    · exact h
    · exact walled_unreachable m T c hT h1 h2 h3 h4 h5
  have hinv : floodInv T (flood_maze m T) := by
    unfold flood_maze
    dsimp only
    apply flood_loop_inv
    refine ⟨?_, ?_, ?_⟩
    · intro x
      dsimp only
      split_ifs <;> simp [MAX_COST]
    · dsimp only
      rw [if_pos rfl]
    · intro x hx
      dsimp only at hx ⊢
      split_ifs at hx with hxt
      · subst hxt
        exact ⟨0, by omega, reachN.refl⟩
      · exfalso
        simp [MAX_COST] at hx
  obtain ⟨hb, hT0, hS⟩ := hinv
  refine ⟨hT0, ?_⟩
  have hwalls : (flood_maze m T).m_walls = m.m_walls := by
    unfold flood_maze
    dsimp only
    exact flood_loop_walls _ _ _
  by_contra hne
  have hlt : (flood_maze m T).m_cost c < 255 := Nat.lt_of_le_of_ne (hb c) hne
  obtain ⟨n, _, hr⟩ := hS c hlt
  rw [hwalls] at hr
  exact hunreach ⟨n, hr⟩

set_option maxRecDepth 200000 in
/-- C8, counterexample to the claim as stated: in the asymmetric wall state
`asymMaze`, cell 0 carries all four wall bits and differs from the target
240, yet the flood assigns it a finite cost, because `flood_maze` only
tests the wall bits of the cell it exits. -/
theorem flood_walled_cell_not_sentinel :
    asymMaze.m_walls 0 &&& 15 = 15 ∧ (0 : Nat) ≠ 240 ∧
      ¬ ((flood_maze asymMaze 240).m_cost 0 = 255) := by
  decide

set_option maxRecDepth 200000 in
/-- C8, witness: in the initialised maze with cell `0x77` walled off on all
four sides, flooding toward `0x22` gives the target cost 0 and leaves the
walled cell at the sentinel. -/
theorem flood_sentinel_witness :
    ((0x22 : Nat) < 256 ∧
      (wall_symmetric walledMaze ∧ perimeter_closed walledMaze ∧
        (0x77 : Nat) < 256 ∧ (0x77 : Nat) ≠ 0x22 ∧
        walledMaze.m_walls 0x77 &&& 15 = 15)) ∧
      ((flood_maze walledMaze 0x22).m_cost 0x22 = 0 ∧
        (flood_maze walledMaze 0x22).m_cost 0x77 = 255) :=
  ⟨⟨by decide, by decide, by decide, by decide, by decide, by decide⟩,
    flood_sentinel walledMaze 0x22 0x77 (by decide)
      (Or.inr ⟨by decide, by decide, by decide, by decide, by decide⟩)⟩

/-! ## C1: the flood on the open grid computes Manhattan distances -/

theorem flood_loop_cons (m : Maze) (here : Nat) (rest : List Nat) (f : Nat) :
    flood_loop m (here :: rest) (f + 1) =
      flood_loop ([0, 1, 2, 3].foldl (flood_relax here (m.m_cost here + 1)) (m, rest)).1
        ([0, 1, 2, 3].foldl (flood_relax here (m.m_cost here + 1)) (m, rest)).2 f := rfl

theorem flood_relax_cost_le (here nc : Nat) (st : Maze × List Nat) (d c : Nat) :
    ((flood_relax here nc st d).1).m_cost c ≤ st.1.m_cost c := by
  unfold flood_relax
  dsimp only
  split_ifs with h1 h2
  · dsimp only
    split_ifs with hc
    · subst hc
      have := Nat.mod_le nc 256
      omega
    · exact le_refl _
  · exact le_refl _
  · exact le_refl _

theorem foldl_relax_cost_le (here nc : Nat) : ∀ (l : List Nat) (st : Maze × List Nat) (c : Nat),
    ((l.foldl (flood_relax here nc) st).1).m_cost c ≤ st.1.m_cost c := by
  intro l
  induction l with
  | nil => intro st c; exact le_refl _
  | cons d rest ih =>
    intro st c
    rw [List.foldl_cons]
    exact le_trans (ih _ c) (flood_relax_cost_le here nc st d c)

theorem flood_relax_queue_mono (here nc : Nat) (st : Maze × List Nat) (d : Nat) :
    ∀ x ∈ st.2, x ∈ (flood_relax here nc st d).2 := by
  unfold flood_relax
  dsimp only
  split_ifs <;> intro x hx
  · exact List.mem_append_left _ hx
  · exact hx
  · exact hx

theorem foldl_relax_queue_mono (here nc : Nat) : ∀ (l : List Nat) (st : Maze × List Nat),
    ∀ x ∈ st.2, x ∈ (l.foldl (flood_relax here nc) st).2 := by
  intro l
  induction l with
  | nil => intro st x hx; exact hx
  | cons d rest ih =>
    intro st x hx
    rw [List.foldl_cons]
    exact ih _ x (flood_relax_queue_mono here nc st d x hx)

theorem flood_relax_unchanged (here nc : Nat) (st : Maze × List Nat) (d c : Nat) :
    ((flood_relax here nc st d).1).m_cost c = st.1.m_cost c ∨
      c ∈ (flood_relax here nc st d).2 := by
  unfold flood_relax
  dsimp only
  split_ifs with h1 h2
  · dsimp only
    split_ifs with hc
    · right
      exact List.mem_append_right _ (by simp [hc])
    · left; rfl
  · left; rfl
  · left; rfl

theorem foldl_relax_unchanged (here nc : Nat) : ∀ (l : List Nat) (st : Maze × List Nat) (c : Nat),
    ((l.foldl (flood_relax here nc) st).1).m_cost c = st.1.m_cost c ∨
      c ∈ (l.foldl (flood_relax here nc) st).2 := by
  intro l
  induction l with
  | nil => intro st c; left; rfl
  | cons d rest ih =>
    intro st c
    rw [List.foldl_cons]
    rcases ih (flood_relax here nc st d) c with h | h
    · rcases flood_relax_unchanged here nc st d c with h2 | h2
      · left; rw [h, h2]
      · right
        exact foldl_relax_queue_mono here nc rest _ c h2
    · right; exact h

theorem flood_relax_cost_ne (here nc : Nat) (st : Maze × List Nat) (d c : Nat)
    (hne : c ≠ neighbour here d) :
    ((flood_relax here nc st d).1).m_cost c = st.1.m_cost c := by
  unfold flood_relax
  dsimp only
  split_ifs with h1 h2
  · dsimp only
    rw [if_neg hne]
  · rfl
  · rfl

theorem neighbour_ne_self (b d : Nat) (hb : b < 256) (hd : d < 4) : neighbour b d ≠ b := by
  interval_cases d <;>
    simp only [neighbour, cell_north, cell_east, cell_south, cell_west] <;>
    omega

theorem flood_relax_bytes (here nc : Nat) (st : Maze × List Nat) (d : Nat)
    (hB : costBytes st.1) : costBytes (flood_relax here nc st d).1 := by
  intro c
  unfold flood_relax
  dsimp only
  split_ifs with h1 h2
  · dsimp only
    split_ifs with hc
    · have := Nat.mod_lt nc (show 0 < 256 by omega)
      omega
    · exact hB c
  · exact hB c
  · exact hB c

theorem foldl_relax_bytes (here nc : Nat) : ∀ (l : List Nat) (st : Maze × List Nat),
    costBytes st.1 → costBytes (l.foldl (flood_relax here nc) st).1 := by
  intro l
  induction l with
  | nil => intro st h; exact h
  | cons d rest ih =>
    intro st h
    rw [List.foldl_cons]
    exact ih _ (flood_relax_bytes here nc st d h)

theorem flood_relax_queueOK (here nc : Nat) (st : Maze × List Nat) (d : Nat)
    (hd : d < 4) (hq : queueOK st.2) : queueOK (flood_relax here nc st d).2 := by
  intro x hx
  unfold flood_relax at hx
  dsimp only at hx
  split_ifs at hx with h1 h2
  · rcases List.mem_append.mp hx with h | h
    · exact hq x h
    · have : x = neighbour here d := by simpa using h
      rw [this]
      exact neighbour_lt_256 here d hd
  · exact hq x hx
  · exact hq x hx

theorem foldl_relax_queueOK (here nc : Nat) : ∀ (l : List Nat) (st : Maze × List Nat),
    (∀ d ∈ l, d < 4) → queueOK st.2 → queueOK (l.foldl (flood_relax here nc) st).2 := by
  intro l
  induction l with
  | nil => intro st _ h; exact h
  | cons d rest ih =>
    intro st hl h
    rw [List.foldl_cons]
    exact ih _ (fun d hd => hl d (by simp [hd]))
      (flood_relax_queueOK here nc st d (hl d (by simp)) h)

theorem foldl_relax_processed (here nc : Nat) : ∀ (l : List Nat) (st : Maze × List Nat) (d : Nat),
    d ∈ l → st.1.m_walls here &&& (1 <<< d) = 0 →
    ((l.foldl (flood_relax here nc) st).1).m_cost (neighbour here d) ≤ nc := by
  intro l
  induction l with
  | nil => intro st d hd; exact absurd hd (List.not_mem_nil d)
  | cons d0 rest ih =>
    intro st d hd hexit
    rw [List.foldl_cons]
    rcases List.mem_cons.mp hd with rfl | hmem
    · refine le_trans (foldl_relax_cost_le here nc rest _ _) ?_
      unfold flood_relax
      dsimp only
      have hcond : is_exit st.1 here d = true := by simp [is_exit, hexit]
      rw [if_pos hcond]
      split_ifs with h2
      · dsimp only
        rw [if_pos rfl]
        exact Nat.mod_le nc 256
      · omega
    · apply ih
      · exact hmem
      · rw [flood_relax_walls]
        exact hexit

theorem flood_iter_stable (m : Maze) (here : Nat) (rest : List Nat)
    (hhere : here < 256) (hB : costBytes m)
    (hstab : stableExcept m (here :: rest)) :
    stableExcept ([0, 1, 2, 3].foldl (flood_relax here (m.m_cost here + 1)) (m, rest)).1
      ([0, 1, 2, 3].foldl (flood_relax here (m.m_cost here + 1)) (m, rest)).2 := by
  intro x hx hxq d hd hexit
  have hw : (([0, 1, 2, 3].foldl (flood_relax here (m.m_cost here + 1)) (m, rest)).1).m_walls
      = m.m_walls := foldl_relax_walls _ _ _ _
  have hexit0 : is_exit m x d = true := by
    unfold is_exit at hexit ⊢
    rw [hw] at hexit
    exact hexit
  by_cases hxh : x = here
  · subst hxh
    have hxcost : (([0, 1, 2, 3].foldl (flood_relax x (m.m_cost x + 1)) (m, rest)).1).m_cost x
        = m.m_cost x := by
      show ((flood_relax x _ (flood_relax x _ (flood_relax x _ (flood_relax x _ (m, rest) 0) 1) 2) 3).1).m_cost x = m.m_cost x
      rw [flood_relax_cost_ne _ _ _ _ _ (Ne.symm (neighbour_ne_self x 3 hx (by omega))),
        flood_relax_cost_ne _ _ _ _ _ (Ne.symm (neighbour_ne_self x 2 hx (by omega))),
        flood_relax_cost_ne _ _ _ _ _ (Ne.symm (neighbour_ne_self x 1 hx (by omega))),
        flood_relax_cost_ne _ _ _ _ _ (Ne.symm (neighbour_ne_self x 0 hx (by omega)))]
    have hproc := foldl_relax_processed x (m.m_cost x + 1) [0, 1, 2, 3] (m, rest) d
      (by interval_cases d <;> simp)
      (by unfold is_exit at hexit0; simpa using hexit0)
    rw [hxcost]
    exact hproc
  · have hxrest : x ∉ rest := fun hmem =>
      hxq (foldl_relax_queue_mono here (m.m_cost here + 1) [0, 1, 2, 3] (m, rest) x hmem)
    have hxq0 : x ∉ (here :: rest) := by
      simp [hxh, hxrest]
    have hold := hstab x hx hxq0 d hd hexit0
    have hxcost : (([0, 1, 2, 3].foldl (flood_relax here (m.m_cost here + 1)) (m, rest)).1).m_cost x
        = m.m_cost x := by
      rcases foldl_relax_unchanged here (m.m_cost here + 1) [0, 1, 2, 3] (m, rest) x with h | h
      · exact h
      · exact absurd h hxq
    rw [hxcost]
    exact le_trans (foldl_relax_cost_le here (m.m_cost here + 1) [0, 1, 2, 3] (m, rest)
      (neighbour x d)) hold

theorem costSum_update (cost : Nat → Nat) (k v : Nat) (hk : k < 256) :
    (∑ c ∈ Finset.range 256, (if c = k then v else cost c)) + cost k =
      (∑ c ∈ Finset.range 256, cost c) + v := by
  have hk' : k ∈ Finset.range 256 := Finset.mem_range.mpr hk
  rw [← Finset.add_sum_erase _ _ hk', ← Finset.add_sum_erase _ (fun c => cost c) hk']
  have herase : ∑ c ∈ (Finset.range 256).erase k, (if c = k then v else cost c) =
      ∑ c ∈ (Finset.range 256).erase k, cost c :=
    Finset.sum_congr rfl fun x hx => if_neg (Finset.ne_of_mem_erase hx)
  rw [herase, if_pos rfl]
  omega

theorem flood_relax_measure (here nc : Nat) (st : Maze × List Nat) (d : Nat)
    (hB : costBytes st.1) (hd : d < 4) :
    floodMeasure (flood_relax here nc st d).1 (flood_relax here nc st d).2 ≤
      floodMeasure st.1 st.2 := by
  unfold flood_relax
  dsimp only
  split_ifs with h1 h2
  · unfold floodMeasure costSum
    rw [List.length_append]
    have hup := costSum_update st.1.m_cost (neighbour here d) (nc % 256)
      (neighbour_lt_256 here d hd)
    have hv : nc % 256 < st.1.m_cost (neighbour here d) := by
      have := Nat.mod_le nc 256
      omega
    simp only [List.length_cons, List.length_nil]
    omega
  · exact le_refl _
  · exact le_refl _

theorem foldl_relax_measure (here nc : Nat) : ∀ (l : List Nat) (st : Maze × List Nat),
    (∀ d ∈ l, d < 4) → costBytes st.1 →
    floodMeasure (l.foldl (flood_relax here nc) st).1 (l.foldl (flood_relax here nc) st).2 ≤
      floodMeasure st.1 st.2 := by
  intro l
  induction l with
  | nil => intro st _ _; exact le_refl _
  | cons d rest ih =>
    intro st hl hB
    rw [List.foldl_cons]
    exact le_trans
      (ih _ (fun d' hd' => hl d' (by simp [hd'])) (flood_relax_bytes here nc st d hB))
      (flood_relax_measure here nc st d hB (hl d (by simp)))

theorem flood_loop_stable (fuel : Nat) : ∀ (m : Maze) (q : List Nat),
    queueOK q → costBytes m → stableExcept m q → floodMeasure m q < fuel →
    ∀ x < 256, ∀ d < 4, is_exit (flood_loop m q fuel) x d = true →
      (flood_loop m q fuel).m_cost (neighbour x d) ≤ (flood_loop m q fuel).m_cost x + 1 := by
  induction fuel with
  | zero => intro m q _ _ _ hmu; omega
  | succ f ih =>
    intro m q hq hB hst hmu
    cases q with
    | nil =>
      intro x hx d hd hex
      exact hst x hx (List.not_mem_nil x) d hd hex
    | cons here rest =>
      rw [flood_loop_cons]
      apply ih
      · exact foldl_relax_queueOK here (m.m_cost here + 1) [0, 1, 2, 3] (m, rest)
          (by intro d hd; fin_cases hd <;> omega)
          (fun x hx => hq x (by simp [hx]))
      · exact foldl_relax_bytes here (m.m_cost here + 1) [0, 1, 2, 3] (m, rest) hB
      · exact flood_iter_stable m here rest (hq here (by simp)) hB hst
      · have hstep := foldl_relax_measure here (m.m_cost here + 1) [0, 1, 2, 3] (m, rest)
          (by intro d hd; fin_cases hd <;> omega) hB
        have hstep2 : floodMeasure
            ([0, 1, 2, 3].foldl (flood_relax here (m.m_cost here + 1)) (m, rest)).1
            ([0, 1, 2, 3].foldl (flood_relax here (m.m_cost here + 1)) (m, rest)).2 ≤
            floodMeasure m rest := hstep
        have hlen : floodMeasure m (here :: rest) = floodMeasure m rest + 1 := by
          unfold floodMeasure
          simp [List.length_cons]
          omega
        omega

theorem flood_maze_as_loop (m : Maze) (t : Nat) :
    flood_maze m t = flood_loop (floodStart m t) [t] FLOOD_FUEL := rfl

theorem floodStart_cost (m : Maze) (t c : Nat) :
    (floodStart m t).m_cost c = if c = t then 0 else MAX_COST := rfl

theorem floodStart_walls (m : Maze) (t : Nat) :
    (floodStart m t).m_walls = m.m_walls := rfl

theorem cost_le_path (r : Maze) (T : Nat) (hT : T < 256) (hT0 : r.m_cost T = 0)
    (hstab : ∀ x < 256, ∀ d < 4, is_exit r x d = true →
      r.m_cost (neighbour x d) ≤ r.m_cost x + 1) :
    ∀ x n, reachN r.m_walls T x n → r.m_cost x ≤ n := by
  intro x n h
  induction h with
  | refl => rw [hT0]
  | @step b k d hb hd hexit ih =>
    have hb256 : b < 256 := reachN_lt_256 _ _ _ _ hT hb
    have hex : is_exit r b d = true := by simp [is_exit, hexit]
    have := hstab b hb256 d hd hex
    omega

set_option maxRecDepth 4000 in
theorem openWalls_bits : ∀ c < 256,
    (openWalls c &&& 1 = 0 ↔ ¬ c % 16 = 15) ∧
      (openWalls c &&& 2 = 0 ↔ ¬ c / 16 = 15) ∧
      (openWalls c &&& 4 = 0 ↔ ¬ c % 16 = 0) ∧
      (openWalls c &&& 8 = 0 ↔ ¬ c / 16 = 0) := by
  decide

theorem manhattan_zero (c T : Nat) (hc : c < 256) (hT : T < 256)
    (h : manhattan c T = 0) : c = T := by
  unfold manhattan rowOf colOf at h
  omega

theorem manhattan_le_30 (c T : Nat) (hc : c < 256) (hT : T < 256) : manhattan c T ≤ 30 := by
  unfold manhattan rowOf colOf
  omega

theorem open_path (T : Nat) (hT : T < 256) :
    ∀ k, ∀ c < 256, manhattan c T = k → reachN openWalls T c k := by
  intro k
  induction k with
  | zero =>
    intro c hc h0
    have hcT : c = T := manhattan_zero c T hc hT h0
    subst hcT
    exact reachN.refl
  | succ k ih =>
    intro c hc hmd
    unfold manhattan rowOf colOf at hmd
    by_cases h1 : c % 16 < T % 16
    · have hb : reachN openWalls T (c + 1) k := by
        apply ih
        · omega
        · unfold manhattan rowOf colOf
          omega
      have hexit : openWalls (c + 1) &&& (1 <<< 2) = 0 :=
        ((openWalls_bits (c + 1) (by omega)).2.2.1).mpr (by omega)
      have he : neighbour (c + 1) 2 = c := by
        simp only [neighbour, cell_south]; omega
      have hstep := reachN.step 2 hb (by omega) hexit
      rw [he] at hstep
      exact hstep
    · by_cases h2 : T % 16 < c % 16
      · have hb : reachN openWalls T (c - 1) k := by
          apply ih
          · omega
          · unfold manhattan rowOf colOf
            omega
        have hexit : openWalls (c - 1) &&& (1 <<< 0) = 0 :=
          ((openWalls_bits (c - 1) (by omega)).1).mpr (by omega)
        have he : neighbour (c - 1) 0 = c := by
          simp only [neighbour, cell_north]; omega
        have hstep := reachN.step 0 hb (by omega) hexit
        rw [he] at hstep
        exact hstep
      · by_cases h3 : c / 16 < T / 16
        · have hb : reachN openWalls T (c + 16) k := by
            apply ih
            · omega
            · unfold manhattan rowOf colOf
              omega
          have hexit : openWalls (c + 16) &&& (1 <<< 3) = 0 :=
            ((openWalls_bits (c + 16) (by omega)).2.2.2).mpr (by omega)
          have he : neighbour (c + 16) 3 = c := by
            simp only [neighbour, cell_west]; omega
          have hstep := reachN.step 3 hb (by omega) hexit
          rw [he] at hstep
          exact hstep
        · by_cases h4 : T / 16 < c / 16
          · have hb : reachN openWalls T (c - 16) k := by
              apply ih
              · omega
              · unfold manhattan rowOf colOf
                omega
            have hexit : openWalls (c - 16) &&& (1 <<< 1) = 0 :=
              ((openWalls_bits (c - 16) (by omega)).2.1).mpr (by omega)
            have he : neighbour (c - 16) 1 = c := by
              simp only [neighbour, cell_east]; omega
            have hstep := reachN.step 1 hb (by omega) hexit
            rw [he] at hstep
            exact hstep
          · exfalso
            omega

theorem path_ge_manhattan (T : Nat) (hT : T < 256) :
    ∀ x n, reachN openWalls T x n → manhattan x T ≤ n := by
  intro x n h
  induction h with
  | refl => unfold manhattan rowOf colOf; omega
  | @step b k d hb hd hexit ih =>
    have hb256 : b < 256 := reachN_lt_256 _ _ _ _ hT hb
    interval_cases d
    · have hrow : ¬ b % 16 = 15 := ((openWalls_bits b hb256).1).mp hexit
      have he : neighbour b 0 = b + 1 := by
        simp only [neighbour, cell_north]; omega
      rw [he]
      unfold manhattan rowOf colOf at ih ⊢
      omega
    · have hcol : ¬ b / 16 = 15 := ((openWalls_bits b hb256).2.1).mp hexit
      have he : neighbour b 1 = b + 16 := by
        simp only [neighbour, cell_east]; omega
      rw [he]
      unfold manhattan rowOf colOf at ih ⊢
      omega
    · have hrow : ¬ b % 16 = 0 := ((openWalls_bits b hb256).2.2.1).mp hexit
      have he : neighbour b 2 = b - 1 := by
        simp only [neighbour, cell_south]; omega
      rw [he]
      unfold manhattan rowOf colOf at ih ⊢
      omega
    · have hcol : ¬ b / 16 = 0 := ((openWalls_bits b hb256).2.2.2).mp hexit
      have he : neighbour b 3 = b - 16 := by
        simp only [neighbour, cell_west]; omega
      rw [he]
      unfold manhattan rowOf colOf at ih ⊢
      omega

set_option maxRecDepth 4000 in
/-- C1: on the open grid (perimeter walls only, no internal walls),
flooding toward any target cell `T` leaves every cell `c` holding exactly
the Manhattan distance `|row(c) - row(T)| + |col(c) - col(T)|` under the
encoding `cell = row + 16 * column`. -/
theorem flood_open_grid_manhattan (T c : Nat) (hT : T < 256) (hc : c < 256) :
    (flood_maze openMaze T).m_cost c = manhattan c T := by
  have hB1 : costBytes (floodStart openMaze T) := by
    intro x
    rw [floodStart_cost]
    split_ifs <;> simp [MAX_COST]
  have hq1 : queueOK [T] := by
    intro x hx
    have : x = T := by simpa using hx
    omega
  have hst1 : stableExcept (floodStart openMaze T) [T] := by
    intro x hx hxq d hd hex
    have hxT : ¬ x = T := by simpa using hxq
    have hx255 : (floodStart openMaze T).m_cost x = 255 := by
      rw [floodStart_cost, if_neg hxT]
      rfl
    have hnb := hB1 (neighbour x d)
    omega
  have hmu1 : floodMeasure (floodStart openMaze T) [T] < FLOOD_FUEL := by
    have hsum : costSum (floodStart openMaze T) ≤ 65280 := by
      unfold costSum
      calc ∑ x ∈ Finset.range 256, (floodStart openMaze T).m_cost x
          ≤ ∑ _x ∈ Finset.range 256, 255 := Finset.sum_le_sum fun i _ => hB1 i
        _ = 65280 := by simp
    unfold floodMeasure FLOOD_FUEL
    simp only [List.length_cons, List.length_nil]
    omega
  have hstab := flood_loop_stable FLOOD_FUEL (floodStart openMaze T) [T] hq1 hB1 hst1 hmu1
  rw [← flood_maze_as_loop] at hstab
  have hinv : floodInv T (flood_maze openMaze T) := by
    rw [flood_maze_as_loop]
    apply flood_loop_inv
    refine ⟨hB1, ?_, ?_⟩
    · rw [floodStart_cost, if_pos rfl]
    · intro x hx
      rw [floodStart_cost] at hx
      split_ifs at hx with hxt
      · subst hxt
        exact ⟨0, by omega, reachN.refl⟩
      · exfalso
        simp [MAX_COST] at hx
  obtain ⟨hB2, hT0, hS⟩ := hinv
  have hwalls : (flood_maze openMaze T).m_walls = openWalls := by
    rw [flood_maze_as_loop]
    exact flood_loop_walls _ _ _
  have hupper : (flood_maze openMaze T).m_cost c ≤ manhattan c T := by
    apply cost_le_path (flood_maze openMaze T) T hT hT0 hstab c (manhattan c T)
    rw [hwalls]
    exact open_path T hT (manhattan c T) c hc rfl
  have hlow : manhattan c T ≤ (flood_maze openMaze T).m_cost c := by
    have h30 := manhattan_le_30 c T hc hT
    have hlt : (flood_maze openMaze T).m_cost c < 255 := by omega
    obtain ⟨n, hn, hr⟩ := hS c hlt
    rw [hwalls] at hr
    exact le_trans (path_ge_manhattan T hT c n hr) hn
  omega

/-- C1, witness at target `0x22` and cell 0: the start corner sits at
Manhattan distance 4 from the goal of the spec's end-to-end scenario. -/
theorem flood_open_grid_manhattan_witness :
    (34 : Nat) < 256 ∧ (0 : Nat) < 256 ∧
      (flood_maze openMaze 34).m_cost 0 = manhattan 0 34 :=
  ⟨by decide, by decide, flood_open_grid_manhattan 34 0 (by decide) (by decide)⟩

end Mazerunner
